import Mathlib

/-!
Verification of the ArchBlocker website-blocking daemon, shallowly embedded
from `src/backend/archblocker.py`.

Modelling conventions:
* Python strings are `List Char` (`Str`); `readlines` / `writelines` are
  modelled faithfully: `readlines` splits after every newline character and
  keeps the terminators, `writelines` is plain concatenation (`joinLines`).
* Wall-clock instants (`datetime.now()`) are natural numbers counting minutes
  since an epoch; the local calendar date of an instant is `dateOf t = t / 1440`
  (the ISO date strings used as dictionary keys are in bijection with days, so
  the day index stands for the key).  `strftime '%H%M'` parsed by `int` is
  `hour * 100 + minute`, exactly as in the source.
* ISO timestamp strings stored in `pause_until` are modelled by `IsoTime`:
  either a string that `datetime.fromisoformat` parses (represented by the
  instant it denotes) or a string it rejects.  A missing / `null` entry is
  `none`; `fromisoformat` fails on those, as it raises in Python.
* Python dicts keyed by strings/dates are association lists with dict
  semantics (`alookup` / `ainsert`: update in place, append if absent).
* `try/except: return False` is modelled by computing in `Option` (`none` is a
  raised exception) and applying `Option.getD false` at the boundary.
* Python `int(s)` on a string is modelled on its core domain: an optional
  leading minus sign followed by a nonempty run of decimal digits; anything
  else raises (`none`).
* The file-system side of `update_hosts_file` (lines 135-176) is modelled as
  the sequence of operations the code performs on `/etc/hosts`
  (`chattr -i`, read, `open(..., 'w')` which truncates, `writelines`,
  `chattr +i`, cache flush), so that atomicity of the rewrite is expressible
  as a property of the intermediate file states of that trace.
-/

set_option maxRecDepth 20000

abbrev Str := List Char

/-- Constant `MAX_DAILY_PAUSES` from the source (line 25). -/
def MAX_DAILY_PAUSES : Nat := 2

/-- Constant `MAX_DAILY_PAUSE_MINUTES` from the source (line 26). -/
def MAX_DAILY_PAUSE_MINUTES : Nat := 15

/-- Local calendar date (day index) of an instant given in minutes. -/
def dateOf (now : Nat) : Nat := now / 1440

/-- Hour-of-day of an instant. -/
def hourOf (now : Nat) : Nat := now % 1440 / 60

/-- Minute-of-hour of an instant. -/
def minuteOf (now : Nat) : Nat := now % 60

/-- Value of `int(current.strftime('%H%M'))` (source line 85): hour*100 + minute. -/
def strftimeHHMM (now : Nat) : Nat := hourOf now * 100 + minuteOf now

/-- A website entry of the persisted config (`targets` of the spec). -/
structure Website where
  url : Str
  enabled : Bool
  startTime : Str
  endTime : Str
deriving DecidableEq

/-- A stored timestamp string: one `datetime.fromisoformat` accepts (denoting
the instant `t`) or one it rejects. -/
inductive IsoTime where
  | valid (t : Nat)
  | invalid (s : Str)
deriving DecidableEq

/-- A per-url pause record: `pause_until` (nullable), `daily_count` and
`daily_minutes`, the latter two keyed by calendar date (source lines 247-257). -/
structure PauseRecord where
  pause_until : Option IsoTime
  daily_count : List (Nat × Nat)
  daily_minutes : List (Nat × Nat)
deriving DecidableEq

/-- The persisted registry: `{'websites': [...], 'pauses': {...}}`. -/
structure Config where
  websites : List Website
  pauses : List (Str × PauseRecord)
deriving DecidableEq

/-- Dictionary lookup on an association list. -/
def alookup {β : Type} : List (Str × β) → Str → Option β
  | [], _ => none
  | (k, v) :: rest, key => if k = key then some v else alookup rest key

/-- Dictionary lookup keyed by dates. -/
def dlookup {β : Type} : List (Nat × β) → Nat → Option β
  | [], _ => none
  | (k, v) :: rest, key => if k = key then some v else dlookup rest key

/-- Dictionary update: replace in place if the key exists, append otherwise. -/
def ainsert {β : Type} : List (Str × β) → Str → β → List (Str × β)
  | [], key, v => [(key, v)]
  | (k, w) :: rest, key, v =>
    if k = key then (key, v) :: rest else (k, w) :: ainsert rest key v

/-- Dictionary update keyed by dates. -/
def dinsert {β : Type} : List (Nat × β) → Nat → β → List (Nat × β)
  | [], key, v => [(key, v)]
  | (k, w) :: rest, key, v =>
    if k = key then (key, v) :: rest else (k, w) :: dinsert rest key v

/-- Model of `datetime.fromisoformat(website_pauses.get('pause_until', ''))` (line 93):
raises (`none`) when the entry is missing, `null`, or an unparseable string. -/
def fromisoformat : Option IsoTime → Option Nat
  | some (IsoTime.valid t) => some t
  | _ => none

/-- Model of `s.replace(':', '')` as used on the time strings (lines 99-100). -/
def removeColons (s : Str) : Str := s.filter (fun c => c ≠ ':')

/-- Accumulating decimal value of a digit string. -/
def digitsToNat : Str → Nat → Nat
  | [], acc => acc
  | c :: rest, acc => digitsToNat rest (acc * 10 + (c.toNat - 48))

/-- Python `int(s)` on a string: optional minus sign then a nonempty run of
decimal digits; anything else raises (`none`). -/
def pyInt (s : Str) : Option Int :=
  match s with
  | [] => none
  | c :: rest =>
    if c = '-' then
      if rest ≠ [] ∧ rest.all Char.isDigit then some (-(digitsToNat rest 0 : Int)) else none
    else if (c :: rest).all Char.isDigit then some ((digitsToNat (c :: rest) 0 : Int)) else none

/-- The schedule part of `check_block_needed` (source lines 98-109): parse the
two `HH:MM` strings by stripping colons and applying `int`, then compare
against `current_time` in the `HHMM` integer encoding.  Runs in `Option`:
`none` is a raised exception. -/
def scheduleCheck (website : Website) (current_time : Int) : Option Bool :=
  if website.enabled then
    match pyInt (removeColons website.startTime), pyInt (removeColons website.endTime) with
    | some start_time, some end_time =>
      if start_time ≤ end_time then
        some (decide (start_time ≤ current_time ∧ current_time ≤ end_time))
      else
        some (decide (current_time ≥ start_time ∨ current_time ≤ end_time))
    | _, _ => none
  else some false

/-- Body of `check_block_needed` (source lines 82-109) before the enclosing
`try/except`: the pause override is evaluated first and short-circuits the
schedule; a raised exception is `none`. -/
def check_block_needed_exc (pauses : List (Str × PauseRecord)) (now : Nat)
    (website : Website) : Option Bool :=
  let current_time : Int := (strftimeHHMM now : Int)
  match alookup pauses website.url with
  | some website_pauses =>
    match fromisoformat website_pauses.pause_until with
    | some pause_until =>
      if now < pause_until then some false else scheduleCheck website current_time
    | none => none
  | none => scheduleCheck website current_time

/-- Function `check_block_needed` (source lines 82-112): the `except` clause turns any
raised exception into `False`. -/
def check_block_needed (pauses : List (Str × PauseRecord)) (now : Nat)
    (website : Website) : Bool :=
  (check_block_needed_exc pauses now website).getD false

/-- Function `can_pause_website` (source lines 114-125). -/
def can_pause_website (pauses : List (Str × PauseRecord)) (url : Str) (now : Nat) : Bool :=
  let today := dateOf now
  let pause_count :=
    match alookup pauses url with
    | some wp => (dlookup wp.daily_count today).getD 0
    | none => 0
  let total_minutes :=
    match alookup pauses url with
    | some wp => (dlookup wp.daily_minutes today).getD 0
    | none => 0
  decide (pause_count < MAX_DAILY_PAUSES) && decide (total_minutes < MAX_DAILY_PAUSE_MINUTES)

/-- Outcome of the `/websites/<url>/pause` endpoint. -/
inductive PauseResult where
  | invalidDuration
  | limitReached
  | granted (pause_until : Nat) (remainingPauses : Int) (remainingMinutes : Int)
deriving DecidableEq

/-- The record created on first pause (source lines 247-252); its
`pause_until` starts as `null` and is overwritten immediately. -/
def emptyPauseRecord : PauseRecord :=
  { pause_until := none, daily_count := [], daily_minutes := [] }

/-- The `pause_website` endpoint (source lines 224-267), restricted to its
effect on the persisted config: reject a non-positive duration, re-check the
quota, then set `pause_until = now + duration` and bump today's counters. -/
def pause_website (config : Config) (url : Str) (duration_minutes : Int)
    (now : Nat) : Config × PauseResult :=
  if duration_minutes ≤ 0 then (config, PauseResult.invalidDuration)
  else if ¬ can_pause_website config.pauses url now then (config, PauseResult.limitReached)
  else
    let d := duration_minutes.toNat
    let today := dateOf now
    let wp := (alookup config.pauses url).getD emptyPauseRecord
    let newCount := (dlookup wp.daily_count today).getD 0 + 1
    let newMinutes := (dlookup wp.daily_minutes today).getD 0 + d
    let wp' : PauseRecord :=
      { pause_until := some (IsoTime.valid (now + d)),
        daily_count := dinsert wp.daily_count today newCount,
        daily_minutes := dinsert wp.daily_minutes today newMinutes }
    ({ config with pauses := ainsert config.pauses url wp' },
     PauseResult.granted (now + d)
       ((MAX_DAILY_PAUSES : Int) - newCount) ((MAX_DAILY_PAUSE_MINUTES : Int) - newMinutes))

/-- The `add_website` endpoint (source lines 193-210), restricted to its
effect on the persisted config: it appends the posted object with no
validation whatsoever. -/
def add_website (config : Config) (website : Website) : Config :=
  { config with websites := config.websites ++ [website] }

/-- The managed-section start delimiter (source line 146). -/
def startMarker : Str := "## ARCHBLOCKER START".toList

/-- The managed-section end delimiter (source line 149). -/
def endMarker : Str := "## ARCHBLOCKER END".toList

/-- Test of whether the second list begins with the first, written out to keep the development
self-contained. -/
def startsWith : Str → Str → Bool
  | [], _ => true
  | _ :: _, [] => false
  | p :: ps, c :: cs => decide (p = c) && startsWith ps cs

/-- Python's `pat in line` substring test. -/
def containsSub (pat : Str) : Str → Bool
  | [] => pat.isEmpty
  | c :: rest => startsWith pat (c :: rest) || containsSub pat rest

/-- Model of `f.readlines()`: split after every newline, keeping the terminators; a
final fragment without a newline is kept as an unterminated line. -/
def splitLinesAux : Str → Str → List Str
  | [], acc => if acc.isEmpty then [] else [acc.reverse]
  | c :: rest, acc =>
    if c = '\n' then (acc.reverse ++ ['\n']) :: splitLinesAux rest []
    else splitLinesAux rest (c :: acc)

def readlines (s : Str) : List Str := splitLinesAux s []

/-- Model of `f.writelines(lines)`: plain concatenation of the line strings. -/
def joinLines : List Str → Str
  | [] => []
  | l :: rest => l ++ joinLines rest

/-- The foreign-content filter of `update_hosts_file` (source lines 143-153):
drop delimiter lines and everything between them, keep the rest. -/
def stripManaged (inBlock : Bool) : List Str → List Str
  | [] => []
  | line :: rest =>
    if containsSub startMarker line then stripManaged true rest
    else if containsSub endMarker line then stripManaged false rest
    else if inBlock then stripManaged inBlock rest
    else line :: stripManaged inBlock rest

/-- The block-line loop of `update_hosts_file` (source lines 155-161): two
`0.0.0.0` lines per website that currently needs blocking. -/
def blocksFor (pauses : List (Str × PauseRecord)) (now : Nat) : List Website → List Str
  | [] => []
  | site :: rest =>
    if check_block_needed pauses now site then
      ("0.0.0.0 ".toList ++ site.url ++ ['\n']) ::
        ("0.0.0.0 www.".toList ++ site.url ++ ['\n']) :: blocksFor pauses now rest
    else blocksFor pauses now rest

/-- The content rewrite of `update_hosts_file` (source lines 140-169): strip
the old managed section, and append a fresh one only when the block list is
nonempty.  Note the written start delimiter carries a leading newline
(`'\n## ARCHBLOCKER START\n'`, line 164). -/
def update_hosts_file (pauses : List (Str × PauseRecord)) (now : Nat)
    (websites : List Website) (hosts_content : Str) : Str :=
  let new_content := stripManaged false (readlines hosts_content)
  let blocks := blocksFor pauses now websites
  let new_content :=
    if blocks.isEmpty then new_content
    else new_content ++ (('\n' :: startMarker) ++ ['\n']) :: (blocks ++ [endMarker ++ ['\n']])
  joinLines new_content

/-- The bytes of the artifact outside the managed section. -/
def foreignOf (hosts_content : Str) : Str :=
  joinLines (stripManaged false (readlines hosts_content))

/-- Iterate `n` successive reconciliations with unchanged registry and time. -/
def iterUpdate (pauses : List (Str × PauseRecord)) (now : Nat)
    (websites : List Website) : Nat → Str → Str
  | 0, c => c
  | n + 1, c => iterUpdate pauses now websites n (update_hosts_file pauses now websites c)

/-- The two managed lines written for one blocked target. -/
def blockPair (url : Str) : List Str :=
  [("0.0.0.0 ".toList ++ url ++ ['\n']), ("0.0.0.0 www.".toList ++ url ++ ['\n'])]

/-- The byte string of the managed section appended for a nonempty block
list. -/
def managedSection (blocks : List Str) : Str :=
  ('\n' :: startMarker) ++ ['\n'] ++ joinLines blocks ++ endMarker ++ ['\n']

/-- The file-system operations `update_hosts_file` performs on `/etc/hosts`
(source lines 135-176), in order. -/
inductive FsOp where
  | chattrMinusI
  | readFile
  | openTruncate
  | writeAll (content : Str)
  | chattrPlusI
  | flushCaches
deriving DecidableEq

/-- The operation trace of one hosts-file rewrite: `chattr -i`, read,
`open(HOSTS_FILE, 'w')` (which truncates the file), `writelines`,
`chattr +i`, resolver-cache flush. -/
def update_hosts_trace (newBytes : Str) : List FsOp :=
  [FsOp.chattrMinusI, FsOp.readFile, FsOp.openTruncate,
   FsOp.writeAll newBytes, FsOp.chattrPlusI, FsOp.flushCaches]

/-- Effect of one operation on the observable content of `/etc/hosts`. -/
def applyFsOp (file : Str) : FsOp → Str
  | FsOp.openTruncate => []
  | FsOp.writeAll c => c
  | _ => file

/-- Content of `/etc/hosts` after running a list of operations. -/
def runTrace (file : Str) : List FsOp → Str
  | [] => file
  | op :: rest => runTrace (applyFsOp file op) rest

/-- A trace is an atomic replace when every interruption point shows either
the initial or the final content. -/
def atomicTraceB (init : Str) (ops : List FsOp) : Bool :=
  (List.range (ops.length + 1)).all fun i =>
    runTrace init (ops.take i) == init || runTrace init (ops.take i) == runTrace init ops

/-- Pause-store states reachable from an empty registry by pause
registrations, each guarded by a successful `can_pause_website` check and a
positive requested duration. -/
inductive Reachable : Config → Prop
  | empty (websites : List Website) : Reachable { websites := websites, pauses := [] }
  | step {config : Config} (url : Str) (d : Int) (now : Nat) :
      Reachable config →
      can_pause_website config.pauses url now = true →
      0 < d →
      Reachable (pause_website config url d now).1

/-- Numeric value of a digit character. -/
def dv (c : Char) : Nat := c.toNat - 48

/-- Well-formed `HH:MM` time string: two digit pairs separated by a colon,
with the hour below 24 and the minute below 60. -/
def isHHMM : Str → Bool
  | [h1, h2, c, m1, m2] =>
    h1.isDigit && h2.isDigit && decide (c = ':') && m1.isDigit && m2.isDigit &&
      decide (dv h1 * 10 + dv h2 < 24) && decide (dv m1 * 10 + dv m2 < 60)
  | _ => false

/-- Minutes since midnight denoted by a well-formed `HH:MM` string. -/
def timeMinutes : Str → Nat
  | [h1, h2, _, m1, m2] => (dv h1 * 10 + dv h2) * 60 + (dv m1 * 10 + dv m2)
  | _ => 0

/-- The `HHMM` integer encoding of a well-formed `HH:MM` string, as computed by
`int(s.replace(':', ''))`. -/
def timeHHMM : Str → Nat
  | [h1, h2, _, m1, m2] => (dv h1 * 10 + dv h2) * 100 + (dv m1 * 10 + dv m2)
  | _ => 0

/-- A target has no active pause: either no pause record is stored for its
url, or the stored `pause_until` parses to an instant that has passed. -/
def noActivePause (pauses : List (Str × PauseRecord)) (now : Nat) (website : Website) : Prop :=
  alookup pauses website.url = none ∨
    ∃ wp t, alookup pauses website.url = some wp ∧
      fromisoformat wp.pause_until = some t ∧ t ≤ now

/-- The shape of a `readlines` result: every line is newline-terminated with
no interior newline, except that the final line may lack the terminator; all
lines are nonempty. -/
inductive ValidLines : List Str → Prop
  | nil : ValidLines []
  | last (b : Str) : b ≠ [] → '\n' ∉ b → ValidLines [b]
  | cons (b : Str) (rest : List Str) :
      '\n' ∉ b → ValidLines rest → ValidLines ((b ++ ['\n']) :: rest)

/-- The `in_block` flag left by running the filter loop over a list of lines. -/
def flagAfter (b : Bool) : List Str → Bool
  | [] => b
  | line :: rest =>
    flagAfter
      (if containsSub startMarker line then true
       else if containsSub endMarker line then false else b) rest

/-- Value of `dailyCount[day]` for a url, an absent record or date key reading zero. -/
def dailyCountOn (pauses : List (Str × PauseRecord)) (url : Str) (day : Nat) : Nat :=
  match alookup pauses url with
  | some wp => (dlookup wp.daily_count day).getD 0
  | none => 0

/-- Value of `dailyMinutes[day]` for a url, an absent record or date key reading zero. -/
def dailyMinutesOn (pauses : List (Str × PauseRecord)) (url : Str) (day : Nat) : Nat :=
  match alookup pauses url with
  | some wp => (dlookup wp.daily_minutes day).getD 0
  | none => 0

/-! ### Fixtures for concrete instances -/

/-- A url used in concrete instances. -/
def demoUrl : Str := "example.com".toList

/-- A site whose window covers the whole day, so it is always blocked when
enabled and unpaused. -/
def demoSite : Website :=
  { url := demoUrl, enabled := true,
    startTime := "00:00".toList, endTime := "23:59".toList }

/-- A site whose `startTime` is not a parseable time string. -/
def badSite : Website :=
  { url := "x".toList, enabled := true,
    startTime := "9am".toList, endTime := "17:00".toList }

/-- A pause store with one record whose `pause_until` denotes minute 700. -/
def pausedFixture : List (Str × PauseRecord) :=
  [(demoUrl,
    { pause_until := some (IsoTime.valid 700), daily_count := [], daily_minutes := [] })]

/-- The Schedule Evaluator alone: source lines 98-109 together with the
`except` fallback, with no pause record consulted. -/
def shouldBlockSchedule (w : Website) (now : Nat) : Bool :=
  (scheduleCheck w ((strftimeHHMM now : Nat) : Int)).getD false

/-! ### Line-splitting algebra -/

theorem splitLinesAux_nil_eq (acc : Str) :
    splitLinesAux [] acc = if acc.isEmpty then [] else [acc.reverse] := rfl

theorem splitLinesAux_cons_eq (c : Char) (rest acc : Str) :
    splitLinesAux (c :: rest) acc =
      if c = '\n' then (acc.reverse ++ ['\n']) :: splitLinesAux rest []
      else splitLinesAux rest (c :: acc) := rfl

theorem splitLinesAux_append_newline (a : Str) :
    ∀ (rest acc : Str), splitLinesAux (a ++ '\n' :: rest) acc =
      splitLinesAux (a ++ ['\n']) acc ++ splitLinesAux rest [] := by
  induction a with
  | nil =>
    intro rest acc
    rw [List.nil_append, List.nil_append, splitLinesAux_cons_eq, splitLinesAux_cons_eq,
      if_pos rfl, if_pos rfl, splitLinesAux_nil_eq]
    rfl
  | cons c a ih =>
    intro rest acc
    rw [List.cons_append, List.cons_append, splitLinesAux_cons_eq, splitLinesAux_cons_eq]
    by_cases hc : c = '\n'
    · rw [if_pos hc, if_pos hc, ih, List.cons_append]
    · rw [if_neg hc, if_neg hc, ih]

theorem joinLines_splitLinesAux (s : Str) :
    ∀ acc, joinLines (splitLinesAux s acc) = acc.reverse ++ s := by
  induction s with
  | nil =>
    intro acc
    cases acc with
    | nil => rfl
    | cons c a => simp [splitLinesAux_nil_eq, joinLines]
  | cons c rest ih =>
    intro acc
    rw [splitLinesAux_cons_eq]
    by_cases hc : c = '\n'
    · subst hc
      simp [joinLines, ih]
    · rw [if_neg hc, ih (c :: acc)]
      simp

theorem joinLines_readlines (s : Str) : joinLines (readlines s) = s := by
  simpa using joinLines_splitLinesAux s []

theorem joinLines_append (xs ys : List Str) :
    joinLines (xs ++ ys) = joinLines xs ++ joinLines ys := by
  induction xs with
  | nil => simp [joinLines]
  | cons l xs ih => simp [joinLines, ih]

theorem splitLinesAux_no_newline_term (b : Str) (hb : '\n' ∉ b) :
    ∀ acc, splitLinesAux (b ++ ['\n']) acc = [acc.reverse ++ (b ++ ['\n'])] := by
  induction b with
  | nil =>
    intro acc
    rw [List.nil_append, splitLinesAux_cons_eq, if_pos rfl, splitLinesAux_nil_eq]
    simp
  | cons c b ih =>
    intro acc
    have hc : c ≠ '\n' := fun h => hb (h ▸ List.mem_cons_self c b)
    have hb' : '\n' ∉ b := fun h => hb (List.mem_cons_of_mem c h)
    rw [List.cons_append, splitLinesAux_cons_eq, if_neg hc, ih hb' (c :: acc)]
    simp

theorem splitLinesAux_no_newline (b : Str) (hb : '\n' ∉ b) (hne : b ≠ []) :
    ∀ acc, splitLinesAux b acc = [acc.reverse ++ b] := by
  induction b with
  | nil => exact absurd rfl hne
  | cons c b ih =>
    intro acc
    have hc : c ≠ '\n' := fun h => hb (h ▸ List.mem_cons_self c b)
    have hb' : '\n' ∉ b := fun h => hb (List.mem_cons_of_mem c h)
    rw [splitLinesAux_cons_eq, if_neg hc]
    cases b with
    | nil => simp [splitLinesAux_nil_eq]
    | cons d b' =>
      rw [ih hb' (by simp) (c :: acc)]
      simp


theorem validLines_splitLinesAux (s : Str) :
    ∀ acc, '\n' ∉ acc → ValidLines (splitLinesAux s acc) := by
  induction s with
  | nil =>
    intro acc ha
    cases acc with
    | nil => exact ValidLines.nil
    | cons c a =>
      rw [splitLinesAux_nil_eq]
      simp only [List.isEmpty_cons, Bool.false_eq_true, if_false]
      exact ValidLines.last _ (by simp) (fun hm => ha (List.mem_reverse.mp hm))
  | cons c rest ih =>
    intro acc ha
    rw [splitLinesAux_cons_eq]
    by_cases hc : c = '\n'
    · rw [if_pos hc]
      exact ValidLines.cons _ _ (fun hm => ha (List.mem_reverse.mp hm)) (ih [] (by simp))
    · rw [if_neg hc]
      refine ih (c :: acc) ?_
      intro h
      rcases List.mem_cons.mp h with h | h
      · exact hc h.symm
      · exact ha h

theorem validLines_readlines (s : Str) : ValidLines (readlines s) :=
  validLines_splitLinesAux s [] (by simp)

theorem validLines_head_cases {a : Str} {ls : List Str} (h : ValidLines (a :: ls)) :
    (ls = [] ∧ a ≠ [] ∧ '\n' ∉ a) ∨ (∃ b, a = b ++ ['\n'] ∧ '\n' ∉ b ∧ ValidLines ls) := by
  cases h
  case last => rename_i hne hnn; exact Or.inl ⟨rfl, hne, hnn⟩
  case cons => rename_i b hnn hv; exact Or.inr ⟨b, rfl, hnn, hv⟩

theorem validLines_tail {a : Str} {ls : List Str} (h : ValidLines (a :: ls)) :
    ValidLines ls := by
  rcases validLines_head_cases h with ⟨h1, _, _⟩ | ⟨b, _, _, hv⟩
  · subst h1; exact ValidLines.nil
  · exact hv

theorem validLines_sublist : ∀ {ls ls' : List Str},
    List.Sublist ls' ls → ValidLines ls → ValidLines ls' := by
  intro ls ls' h
  induction h with
  | slnil => intro _; exact ValidLines.nil
  | cons a h ih => intro hv; exact ih (validLines_tail hv)
  | cons₂ a h ih =>
    intro hv
    rcases validLines_head_cases hv with ⟨h1, hne, hnn⟩ | ⟨b, hb, hnn, hv'⟩
    · subst h1
      have hx := List.sublist_nil.mp h
      subst hx
      exact ValidLines.last a hne hnn
    · subst hb
      exact ValidLines.cons b _ hnn (ih hv')

theorem readlines_joinLines : ∀ {ls : List Str}, ValidLines ls → readlines (joinLines ls) = ls := by
  intro ls h
  induction h with
  | nil => rfl
  | last b hne hnn =>
    show readlines (b ++ joinLines []) = [b]
    unfold readlines
    simp only [joinLines, List.append_nil]
    simpa using splitLinesAux_no_newline b hnn hne []
  | cons b rest hnn hv ih =>
    show readlines ((b ++ ['\n']) ++ joinLines rest) = _
    unfold readlines
    rw [List.append_assoc, List.singleton_append, splitLinesAux_append_newline,
      splitLinesAux_no_newline_term b hnn []]
    unfold readlines at ih
    simp [ih]

/-! ### The foreign-content filter -/


theorem stripManaged_sublist (ls : List Str) : ∀ b, List.Sublist (stripManaged b ls) ls := by
  induction ls with
  | nil => intro b; simp [stripManaged]
  | cons l rest ih =>
    intro b
    simp only [stripManaged]
    split_ifs with h1 h2 h3
    · exact (ih true).cons l
    · exact (ih false).cons l
    · exact (ih b).cons l
    · exact (ih b).cons₂ l

theorem stripManaged_append (A : List Str) :
    ∀ (B : List Str) (b : Bool),
      stripManaged b (A ++ B) = stripManaged b A ++ stripManaged (flagAfter b A) B := by
  induction A with
  | nil => intro B b; simp [stripManaged, flagAfter]
  | cons l A ih =>
    intro B b
    simp only [List.cons_append, stripManaged, flagAfter]
    by_cases h1 : containsSub startMarker l
    · simp [h1, ih]
    · by_cases h2 : containsSub endMarker l
      · simp [h1, h2, ih]
      · by_cases h3 : b
        · simp [h1, h2, h3, ih]
        · simp [h1, h2, h3, ih]

theorem flagAfter_marker_free {ls : List Str}
    (h : ∀ l ∈ ls, containsSub startMarker l = false ∧ containsSub endMarker l = false) :
    ∀ b, flagAfter b ls = b := by
  induction ls with
  | nil => intro b; rfl
  | cons l rest ih =>
    intro b
    have hl := h l (List.mem_cons_self l rest)
    simp only [flagAfter, hl.1, hl.2, Bool.false_eq_true, if_false]
    exact ih (fun l' hl' => h l' (List.mem_cons_of_mem l hl')) b

theorem stripManaged_id {ls : List Str}
    (h : ∀ l ∈ ls, containsSub startMarker l = false ∧ containsSub endMarker l = false) :
    stripManaged false ls = ls := by
  induction ls with
  | nil => rfl
  | cons l rest ih =>
    have hl := h l (List.mem_cons_self l rest)
    simp only [stripManaged, hl.1, hl.2, Bool.false_eq_true, if_false]
    exact congrArg (l :: ·) (ih (fun l' hl' => h l' (List.mem_cons_of_mem l hl')))

theorem stripManaged_marker_free : ∀ (ls : List Str) (b : Bool) (l : Str),
    l ∈ stripManaged b ls →
      containsSub startMarker l = false ∧ containsSub endMarker l = false := by
  intro ls
  induction ls with
  | nil => intro b l hl; simp [stripManaged] at hl
  | cons hd rest ih =>
    intro b l hl
    simp only [stripManaged] at hl
    split_ifs at hl with h1 h2 h3
    · exact ih true l hl
    · exact ih false l hl
    · exact ih b l hl
    · rcases List.mem_cons.mp hl with h | h
      · subst h
        exact ⟨Bool.eq_false_iff.mpr h1, Bool.eq_false_iff.mpr h2⟩
      · exact ih b l h

/-! ### Substring facts -/

theorem startsWith_self_append (p t : Str) : startsWith p (p ++ t) = true := by
  induction p with
  | nil => rfl
  | cons c p ih => simp [startsWith, ih]

theorem startsWith_append_extend {p x : Str} (t : Str) :
    startsWith p x = true → startsWith p (x ++ t) = true := by
  induction p generalizing x with
  | nil => intro _; rfl
  | cons c p ih =>
    intro h
    cases x with
    | nil => exact absurd h (by simp [startsWith])
    | cons d x =>
      simp only [startsWith, List.cons_append, Bool.and_eq_true, decide_eq_true_eq] at h ⊢
      exact ⟨h.1, ih h.2⟩

theorem startsWith_mem {p x : Str} (h : startsWith p x = true) : ∀ c ∈ p, c ∈ x := by
  induction p generalizing x with
  | nil => intro c hc; cases hc
  | cons d p ih =>
    intro c hc
    cases x with
    | nil => exact absurd h (by simp [startsWith])
    | cons e x =>
      simp only [startsWith, Bool.and_eq_true, decide_eq_true_eq] at h
      rcases List.mem_cons.mp hc with h1 | h1
      · exact h1 ▸ h.1 ▸ List.mem_cons_self e x
      · exact List.mem_cons_of_mem e (ih h.2 c h1)

theorem containsSub_nil_pat (s : Str) : containsSub [] s = true := by
  cases s <;> simp [containsSub, startsWith]

theorem containsSub_of_startsWith {m s : Str} (h : startsWith m s = true) :
    containsSub m s = true := by
  cases s with
  | nil =>
    cases m with
    | nil => rfl
    | cons c m => exact absurd h (by simp [startsWith])
  | cons c rest => simp [containsSub, h]

theorem containsSub_append_right {m s : Str} (t : Str) (h : containsSub m s = true) :
    containsSub m (s ++ t) = true := by
  induction s with
  | nil =>
    have hm : m = [] := by simpa [containsSub, List.isEmpty_iff] using h
    subst hm
    exact containsSub_nil_pat t
  | cons c s ih =>
    simp only [containsSub, Bool.or_eq_true] at h
    simp only [List.cons_append, containsSub, Bool.or_eq_true]
    rcases h with h | h
    · exact Or.inl (startsWith_append_extend t h)
    · exact Or.inr (ih h)

theorem containsSub_append_left {m t : Str} (s : Str) (h : containsSub m t = true) :
    containsSub m (s ++ t) = true := by
  induction s with
  | nil => simpa using h
  | cons c s ih =>
    simp only [List.cons_append, containsSub, Bool.or_eq_true]
    exact Or.inr ih

theorem containsSub_mem {m s : Str} (h : containsSub m s = true) : ∀ c ∈ m, c ∈ s := by
  induction s with
  | nil =>
    have hm : m = [] := by simpa [containsSub, List.isEmpty_iff] using h
    subst hm
    intro c hc
    cases hc
  | cons d s ih =>
    simp only [containsSub, Bool.or_eq_true] at h
    intro c hc
    rcases h with h | h
    · exact startsWith_mem h c hc
    · exact List.mem_cons_of_mem d (ih h c hc)

theorem mem_joinLines_contains {ls : List Str} {l m : Str} (hl : l ∈ ls)
    (h : containsSub m l = true) : containsSub m (joinLines ls) = true := by
  induction ls with
  | nil => cases hl
  | cons hd ls ih =>
    show containsSub m (hd ++ joinLines ls) = true
    rcases List.mem_cons.mp hl with h1 | h1
    · exact h1 ▸ containsSub_append_right _ (h1 ▸ h)
    · exact containsSub_append_left hd (ih h1)

theorem startsWith_before_newline :
    ∀ (x : Str) {p : Str}, '\n' ∉ p → ∀ {t : Str},
      startsWith p (x ++ '\n' :: t) = true → startsWith p (x ++ ['\n']) = true := by
  intro x
  induction x with
  | nil =>
    intro p hp t h
    cases p with
    | nil => rfl
    | cons c p' =>
      simp only [List.nil_append, startsWith, Bool.and_eq_true, decide_eq_true_eq] at h
      obtain ⟨hc, _⟩ := h
      subst hc
      exact absurd (List.mem_cons_self _ _) hp
  | cons d x' ih =>
    intro p hp t h
    cases p with
    | nil => rfl
    | cons c p' =>
      simp only [List.cons_append, startsWith, Bool.and_eq_true, decide_eq_true_eq] at h ⊢
      have hp' : '\n' ∉ p' := fun hm => hp (List.mem_cons_of_mem c hm)
      exact ⟨h.1, ih hp' h.2⟩

theorem startsWith_drop_newline :
    ∀ (x : Str) {p : Str}, '\n' ∉ p →
      startsWith p (x ++ ['\n']) = true → startsWith p x = true := by
  intro x
  induction x with
  | nil =>
    intro p hp h
    cases p with
    | nil => rfl
    | cons c p' =>
      simp only [List.nil_append, startsWith, Bool.and_eq_true, decide_eq_true_eq] at h
      obtain ⟨hc, _⟩ := h
      subst hc
      exact absurd (List.mem_cons_self _ _) hp
  | cons d x' ih =>
    intro p hp h
    cases p with
    | nil => rfl
    | cons c p' =>
      simp only [List.cons_append, startsWith, Bool.and_eq_true, decide_eq_true_eq] at h ⊢
      have hp' : '\n' ∉ p' := fun hm => hp (List.mem_cons_of_mem c hm)
      exact ⟨h.1, ih hp' h.2⟩

theorem containsSub_split {m : Str} (hm : '\n' ∉ m) :
    ∀ (x t : Str), containsSub m (x ++ '\n' :: t) = true →
      containsSub m (x ++ ['\n']) = true ∨ containsSub m t = true := by
  intro x
  induction x with
  | nil =>
    intro t h
    simp only [List.nil_append, containsSub, Bool.or_eq_true] at h
    rcases h with h | h
    · cases m with
      | nil => exact Or.inl (containsSub_nil_pat _)
      | cons c m' =>
        simp only [startsWith, Bool.and_eq_true, decide_eq_true_eq] at h
        obtain ⟨hc, _⟩ := h
        subst hc
        exact absurd (List.mem_cons_self _ _) hm
    · exact Or.inr h
  | cons d x' ih =>
    intro t h
    simp only [List.cons_append, containsSub, Bool.or_eq_true] at h
    rcases h with h | h
    · have h' := startsWith_before_newline (d :: x') hm (by simpa using h)
      exact Or.inl (containsSub_of_startsWith h')
    · rcases ih t h with h' | h'
      · left
        show containsSub m (d :: (x' ++ ['\n'])) = true
        simp [containsSub, h']
      · exact Or.inr h'

theorem containsSub_drop_newline {m : Str} (hm : '\n' ∉ m) :
    ∀ (s : Str), containsSub m (s ++ ['\n']) = true → containsSub m s = true ∨ m = [] := by
  intro s
  induction s with
  | nil =>
    intro h
    simp only [List.nil_append, containsSub, Bool.or_eq_true] at h
    rcases h with h | h
    · cases m with
      | nil => exact Or.inr rfl
      | cons c m' =>
        simp only [startsWith, Bool.and_eq_true, decide_eq_true_eq] at h
        obtain ⟨hc, _⟩ := h
        subst hc
        exact absurd (List.mem_cons_self _ _) hm
    · right
      simpa [containsSub, List.isEmpty_iff] using h
  | cons d s' ih =>
    intro h
    simp only [List.cons_append, containsSub, Bool.or_eq_true] at h
    rcases h with h | h
    · left
      have h' := startsWith_drop_newline (d :: s') hm (by simpa using h)
      exact containsSub_of_startsWith h'
    · rcases ih h with h' | h'
      · left
        simp [containsSub, h']
      · exact Or.inr h'

theorem joinLines_marker_free {m : Str} (hm : '\n' ∉ m) (hne : m ≠ []) :
    ∀ {ls : List Str}, ValidLines ls →
      (∀ l ∈ ls, containsSub m l = false) → containsSub m (joinLines ls) = false := by
  intro ls hv
  induction hv with
  | nil =>
    intro _
    show containsSub m [] = false
    simpa [containsSub] using hne
  | last b hb hnn =>
    intro hml
    show containsSub m (b ++ joinLines []) = false
    simpa [joinLines] using hml b (List.mem_singleton.mpr rfl)
  | cons b rest hnn hvr ih =>
    intro hml
    show containsSub m ((b ++ ['\n']) ++ joinLines rest) = false
    by_contra hcon
    rw [Bool.not_eq_false] at hcon
    have hcon' : containsSub m (b ++ '\n' :: joinLines rest) = true := by
      simpa [List.append_assoc] using hcon
    rcases containsSub_split hm b _ hcon' with h | h
    · exact absurd h (by simp [hml _ (List.mem_cons_self _ _)])
    · exact absurd h (by simp [ih (fun l hl => hml l (List.mem_cons_of_mem _ hl))])

theorem stripManaged_section (bls : List Str)
    (h : ∀ l ∈ bls, containsSub startMarker l = false ∧ containsSub endMarker l = false) :
    stripManaged true (bls ++ [endMarker ++ ['\n']]) = [] := by
  induction bls with
  | nil =>
    simp only [List.nil_append]
    have h1 : containsSub startMarker (endMarker ++ ['\n']) = false := by decide
    have h2 : containsSub endMarker (endMarker ++ ['\n']) = true := by decide
    simp [stripManaged, h1, h2]
  | cons l bls ih =>
    have hl := h l (List.mem_cons_self _ _)
    simp only [List.cons_append, stripManaged, hl.1, hl.2, Bool.false_eq_true, if_false, if_true]
    exact ih (fun l' hl' => h l' (List.mem_cons_of_mem _ hl'))

theorem stripManaged_full_section (bls : List Str)
    (h : ∀ l ∈ bls, containsSub startMarker l = false ∧ containsSub endMarker l = false) :
    stripManaged false ((startMarker ++ ['\n']) :: (bls ++ [endMarker ++ ['\n']])) = [] := by
  have h1 : containsSub startMarker (startMarker ++ ['\n']) = true := by decide
  simp only [stripManaged, h1, if_true]
  exact stripManaged_section bls h

/-! ### Structure of the hosts-file rewrite -/

theorem update_hosts_file_empty_blocks {pauses : List (Str × PauseRecord)} {now : Nat}
    {websites : List Website} {c : Str} (h : blocksFor pauses now websites = []) :
    update_hosts_file pauses now websites c = foreignOf c := by
  unfold update_hosts_file foreignOf
  simp [h]

theorem update_hosts_file_blocks {pauses : List (Str × PauseRecord)} {now : Nat}
    {websites : List Website} {c : Str} (h : blocksFor pauses now websites ≠ []) :
    update_hosts_file pauses now websites c =
      foreignOf c ++ managedSection (blocksFor pauses now websites) := by
  unfold update_hosts_file foreignOf managedSection
  have hb : (blocksFor pauses now websites).isEmpty = false := by
    cases hx : blocksFor pauses now websites with
    | nil => exact absurd hx h
    | cons a l => rfl
  simp [hb, joinLines_append, joinLines, List.append_assoc]

theorem blockLine_ok {pre url : Str} (hpre : '\n' ∉ pre ∧ '#' ∉ pre)
    (hu1 : '\n' ∉ url) (hu2 : '#' ∉ url) :
    (∃ b, pre ++ url ++ ['\n'] = b ++ ['\n'] ∧ '\n' ∉ b) ∧
      containsSub startMarker (pre ++ url ++ ['\n']) = false ∧
      containsSub endMarker (pre ++ url ++ ['\n']) = false := by
  refine ⟨⟨pre ++ url, by simp, ?_⟩, ?_, ?_⟩
  · intro hm
    rcases List.mem_append.mp hm with h | h
    · exact hpre.1 h
    · exact hu1 h
  · by_contra hcon
    rw [Bool.not_eq_false] at hcon
    have hmem := containsSub_mem hcon '#' (by decide)
    rcases List.mem_append.mp hmem with h | h
    · rcases List.mem_append.mp h with h' | h'
      · exact hpre.2 h'
      · exact hu2 h'
    · simp at h
  · by_contra hcon
    rw [Bool.not_eq_false] at hcon
    have hmem := containsSub_mem hcon '#' (by decide)
    rcases List.mem_append.mp hmem with h | h
    · rcases List.mem_append.mp h with h' | h'
      · exact hpre.2 h'
      · exact hu2 h'
    · simp at h

theorem blocksFor_shape {pauses : List (Str × PauseRecord)} {now : Nat} :
    ∀ {websites : List Website}, (∀ w ∈ websites, '\n' ∉ w.url ∧ '#' ∉ w.url) →
      ∀ l ∈ blocksFor pauses now websites,
        (∃ b, l = b ++ ['\n'] ∧ '\n' ∉ b) ∧
          containsSub startMarker l = false ∧ containsSub endMarker l = false := by
  intro websites
  induction websites with
  | nil => intro _ l hl; simp [blocksFor] at hl
  | cons w ws ih =>
    intro hw l hl
    have hwu := hw w (List.mem_cons_self _ _)
    have hws : ∀ w' ∈ ws, '\n' ∉ w'.url ∧ '#' ∉ w'.url :=
      fun w' hw' => hw w' (List.mem_cons_of_mem _ hw')
    simp only [blocksFor] at hl
    by_cases hc : check_block_needed pauses now w
    · rw [if_pos hc] at hl
      rcases List.mem_cons.mp hl with h | h
      · subst h
        exact blockLine_ok (by decide) hwu.1 hwu.2
      · rcases List.mem_cons.mp h with h | h
        · subst h
          exact blockLine_ok (by decide) hwu.1 hwu.2
        · exact ih hws l h
    · rw [if_neg hc] at hl
      exact ih hws l hl

theorem validLines_section (bls : List Str)
    (h : ∀ l ∈ bls, ∃ b, l = b ++ ['\n'] ∧ '\n' ∉ b) :
    ValidLines (bls ++ [endMarker ++ ['\n']]) := by
  induction bls with
  | nil => exact ValidLines.cons _ _ (by decide) ValidLines.nil
  | cons l bls ih =>
    obtain ⟨b, hb, hnn⟩ := h l (List.mem_cons_self _ _)
    rw [List.cons_append, hb]
    exact ValidLines.cons b _ hnn (ih (fun l' hl' => h l' (List.mem_cons_of_mem _ hl')))

theorem foreignOf_marker_free (c : Str) :
    containsSub startMarker (foreignOf c) = false ∧
      containsSub endMarker (foreignOf c) = false := by
  have hks : ValidLines (stripManaged false (readlines c)) :=
    validLines_sublist (stripManaged_sublist _ false) (validLines_readlines c)
  constructor
  · exact joinLines_marker_free (by decide) (by decide) hks
      (fun l hl => (stripManaged_marker_free _ _ _ hl).1)
  · exact joinLines_marker_free (by decide) (by decide) hks
      (fun l hl => (stripManaged_marker_free _ _ _ hl).2)

theorem strip_readlines_append_newline {s : Str}
    (h1 : containsSub startMarker s = false) (h2 : containsSub endMarker s = false) :
    stripManaged false (readlines (s ++ ['\n'])) = readlines (s ++ ['\n'])
      ∧ flagAfter false (readlines (s ++ ['\n'])) = false := by
  have key : ∀ l ∈ readlines (s ++ ['\n']),
      containsSub startMarker l = false ∧ containsSub endMarker l = false := by
    intro l hl
    constructor
    · by_contra hcon
      rw [Bool.not_eq_false] at hcon
      have hj : containsSub startMarker (joinLines (readlines (s ++ ['\n']))) = true :=
        mem_joinLines_contains hl hcon
      rw [joinLines_readlines] at hj
      rcases containsSub_drop_newline (by decide) s hj with h | h
      · exact absurd h (by simp [h1])
      · exact absurd h (by decide)
    · by_contra hcon
      rw [Bool.not_eq_false] at hcon
      have hj : containsSub endMarker (joinLines (readlines (s ++ ['\n']))) = true :=
        mem_joinLines_contains hl hcon
      rw [joinLines_readlines] at hj
      rcases containsSub_drop_newline (by decide) s hj with h | h
      · exact absurd h (by simp [h2])
      · exact absurd h (by decide)
  exact ⟨stripManaged_id key, flagAfter_marker_free key false⟩

theorem readlines_append_newline (a rest : Str) :
    readlines (a ++ '\n' :: rest) = readlines (a ++ ['\n']) ++ readlines rest :=
  splitLinesAux_append_newline a rest []

theorem foreignOf_split (a rest : Str) :
    foreignOf (a ++ '\n' :: rest) =
      joinLines (stripManaged false (readlines (a ++ ['\n']))) ++
        joinLines (stripManaged (flagAfter false (readlines (a ++ ['\n']))) (readlines rest)) := by
  unfold foreignOf
  rw [readlines_append_newline, stripManaged_append, joinLines_append]

theorem foreignOf_update {pauses : List (Str × PauseRecord)} {now : Nat}
    {websites : List Website} (c : Str)
    (hw : ∀ w ∈ websites, '\n' ∉ w.url ∧ '#' ∉ w.url)
    (h : blocksFor pauses now websites ≠ []) :
    foreignOf (update_hosts_file pauses now websites c) = foreignOf c ++ ['\n'] := by
  have hshape := @blocksFor_shape pauses now websites hw
  rw [update_hosts_file_blocks h]
  have hsection : managedSection (blocksFor pauses now websites) =
      '\n' :: joinLines ((startMarker ++ ['\n']) ::
        (blocksFor pauses now websites ++ [endMarker ++ ['\n']])) := by
    unfold managedSection
    simp [joinLines, joinLines_append, List.append_assoc]
  have hvB : ValidLines ((startMarker ++ ['\n']) ::
      (blocksFor pauses now websites ++ [endMarker ++ ['\n']])) :=
    ValidLines.cons _ _ (by decide)
      (validLines_section _ (fun l hl => (hshape l hl).1))
  have hmf := foreignOf_marker_free c
  have hA := strip_readlines_append_newline hmf.1 hmf.2
  rw [hsection, foreignOf_split, hA.1, hA.2, readlines_joinLines hvB,
    stripManaged_full_section _ (fun l hl => (hshape l hl).2)]
  show joinLines (readlines (foreignOf c ++ ['\n'])) ++ joinLines [] = _
  rw [joinLines_readlines]
  simp [joinLines]

theorem foreignOf_idem (c : Str) : foreignOf (foreignOf c) = foreignOf c := by
  have hks : ValidLines (stripManaged false (readlines c)) :=
    validLines_sublist (stripManaged_sublist _ false) (validLines_readlines c)
  show joinLines (stripManaged false (readlines (foreignOf c))) = foreignOf c
  unfold foreignOf
  rw [readlines_joinLines hks,
    stripManaged_id (fun l hl => stripManaged_marker_free _ _ _ hl)]

theorem iterUpdate_foreign {pauses : List (Str × PauseRecord)} {now : Nat}
    {websites : List Website}
    (hw : ∀ w ∈ websites, '\n' ∉ w.url ∧ '#' ∉ w.url)
    (h : blocksFor pauses now websites ≠ []) :
    ∀ (n : Nat) (c : Str),
      foreignOf (iterUpdate pauses now websites n c) =
        foreignOf c ++ List.replicate n '\n' := by
  intro n
  induction n with
  | zero => intro c; simp [iterUpdate]
  | succ n ih =>
    intro c
    show foreignOf (iterUpdate pauses now websites n (update_hosts_file pauses now websites c)) = _
    rw [ih, foreignOf_update c hw h]
    simp [List.replicate_succ]

theorem iterUpdate_stable {pauses : List (Str × PauseRecord)} {now : Nat}
    {websites : List Website} (h : blocksFor pauses now websites = []) :
    ∀ (n : Nat) (c : Str), 1 ≤ n → iterUpdate pauses now websites n c = foreignOf c := by
  intro n
  induction n with
  | zero => intro c h1; exact absurd h1 (by omega)
  | succ n ih =>
    intro c _
    show iterUpdate pauses now websites n (update_hosts_file pauses now websites c) = _
    cases n with
    | zero => simp [iterUpdate, update_hosts_file_empty_blocks h]
    | succ m =>
      rw [ih _ (by omega), update_hosts_file_empty_blocks h, foreignOf_idem]

theorem blocksFor_filter (pauses : List (Str × PauseRecord)) (now : Nat)
    (websites : List Website) :
    blocksFor pauses now websites =
      List.flatten (List.map (fun w => blockPair w.url)
        (websites.filter (fun w => check_block_needed pauses now w))) := by
  induction websites with
  | nil => simp [blocksFor]
  | cons w ws ih =>
    by_cases hc : check_block_needed pauses now w
    · simp [blocksFor, List.filter, hc, blockPair, ih]
    · simp [blocksFor, List.filter, hc, ih]

/-! ### Quota bookkeeping -/

theorem alookup_ainsert_self {β : Type} (m : List (Str × β)) (k : Str) (v : β) :
    alookup (ainsert m k v) k = some v := by
  induction m with
  | nil => simp [ainsert, alookup]
  | cons p m ih =>
    obtain ⟨k', v'⟩ := p
    by_cases h : k' = k
    · simp [ainsert, h, alookup]
    · simp [ainsert, h, alookup, ih]

theorem dlookup_dinsert_self {β : Type} (m : List (Nat × β)) (k : Nat) (v : β) :
    dlookup (dinsert m k v) k = some v := by
  induction m with
  | nil => simp [dinsert, dlookup]
  | cons p m ih =>
    obtain ⟨k', v'⟩ := p
    by_cases h : k' = k
    · simp [dinsert, h, dlookup]
    · simp [dinsert, h, dlookup, ih]

theorem dlookup_dinsert_ne {β : Type} (m : List (Nat × β)) {k k' : Nat} (v : β)
    (h : k ≠ k') : dlookup (dinsert m k v) k' = dlookup m k' := by
  induction m with
  | nil => simp [dinsert, dlookup, h]
  | cons p m ih =>
    obtain ⟨k1, v1⟩ := p
    by_cases h1 : k1 = k
    · subst h1
      simp [dinsert, dlookup, h]
    · simp [dinsert, h1, dlookup, ih]

theorem pause_website_rejected {config : Config} {url : Str} {d : Int} {now : Nat}
    (h : d ≤ 0 ∨ can_pause_website config.pauses url now = false) :
    (pause_website config url d now).1 = config := by
  unfold pause_website
  rcases h with h | h
  · rw [if_pos h]
  · by_cases hd : d ≤ 0
    · rw [if_pos hd]
    · rw [if_neg hd, if_pos (by simp [h])]

theorem pause_website_fresh {config : Config} {url : Str} {d : Int} {now : Nat}
    (h0 : alookup config.pauses url = none) (hd : 0 < d) :
    (pause_website config url d now).1 =
      { config with
        pauses :=
          ainsert config.pauses url
            { pause_until := some (IsoTime.valid (now + d.toNat)),
              daily_count := [(dateOf now, 1)],
              daily_minutes := [(dateOf now, d.toNat)] } } := by
  have hcan : can_pause_website config.pauses url now = true := by
    simp [can_pause_website, h0, MAX_DAILY_PAUSES, MAX_DAILY_PAUSE_MINUTES]
  unfold pause_website
  rw [if_neg (by omega), if_neg (by simp [hcan])]
  simp [h0, emptyPauseRecord, dlookup, dinsert]

theorem pause_website_existing {config : Config} {url : Str} {d : Int} {now : Nat}
    {wp : PauseRecord} (h0 : alookup config.pauses url = some wp) (hd : 0 < d)
    (hcan : can_pause_website config.pauses url now = true) :
    (pause_website config url d now).1 =
      { config with
        pauses :=
          ainsert config.pauses url
            { pause_until := some (IsoTime.valid (now + d.toNat)),
              daily_count :=
                dinsert wp.daily_count (dateOf now)
                  ((dlookup wp.daily_count (dateOf now)).getD 0 + 1),
              daily_minutes :=
                dinsert wp.daily_minutes (dateOf now)
                  ((dlookup wp.daily_minutes (dateOf now)).getD 0 + d.toNat) } } := by
  unfold pause_website
  rw [if_neg (by omega), if_neg (by simp [hcan])]
  simp [h0]


theorem can_pause_website_iff (pauses : List (Str × PauseRecord)) (url : Str) (now : Nat) :
    can_pause_website pauses url now = true ↔
      dailyCountOn pauses url (dateOf now) < MAX_DAILY_PAUSES ∧
        dailyMinutesOn pauses url (dateOf now) < MAX_DAILY_PAUSE_MINUTES := by
  unfold can_pause_website dailyCountOn dailyMinutesOn
  cases alookup pauses url <;> simp

/-! ### Time-string parsing and the schedule window -/

theorem digit_ne_colon {c : Char} (h : c.isDigit = true) : c ≠ ':' := by
  intro hc
  subst hc
  exact absurd h (by decide)

theorem digit_ne_dash {c : Char} (h : c.isDigit = true) : c ≠ '-' := by
  intro hc
  subst hc
  exact absurd h (by decide)

theorem timeHHMM_decomp {s : Str} (h : isHHMM s = true) :
    ∃ hh mm, hh < 24 ∧ mm < 60 ∧ timeHHMM s = hh * 100 + mm ∧
      timeMinutes s = hh * 60 + mm := by
  rcases s with _ | ⟨a, _ | ⟨b, _ | ⟨c, _ | ⟨d, _ | ⟨e, _ | ⟨f, rest⟩⟩⟩⟩⟩⟩
  all_goals try exact absurd h Bool.false_ne_true
  simp only [isHHMM, Bool.and_eq_true, decide_eq_true_eq] at h
  exact ⟨dv a * 10 + dv b, dv d * 10 + dv e, h.1.2, h.2,
    by simp [timeHHMM], by simp [timeMinutes]⟩

theorem isHHMM_parse {s : Str} (h : isHHMM s = true) :
    pyInt (removeColons s) = some ((timeHHMM s : Nat) : Int) := by
  rcases s with _ | ⟨a, _ | ⟨b, _ | ⟨c, _ | ⟨d, _ | ⟨e, _ | ⟨f, rest⟩⟩⟩⟩⟩⟩
  all_goals try exact absurd h Bool.false_ne_true
  simp only [isHHMM, Bool.and_eq_true, decide_eq_true_eq] at h
  obtain ⟨⟨⟨⟨⟨⟨ha, hb⟩, hc⟩, hd⟩, he⟩, hh⟩, hm⟩ := h
  subst hc
  have hra : removeColons [a, b, ':', d, e] = [a, b, d, e] := by
    simp [removeColons, digit_ne_colon ha, digit_ne_colon hb,
      digit_ne_colon hd, digit_ne_colon he]
  rw [hra]
  simp only [pyInt]
  rw [if_neg (digit_ne_dash ha)]
  rw [if_pos (by simp [ha, hb, hd, he])]
  have hval : digitsToNat [a, b, d, e] 0 = timeHHMM [a, b, ':', d, e] := by
    simp only [digitsToNat, timeHHMM, dv]
    ring
  rw [hval]

theorem minuteOf_lt (now : Nat) : minuteOf now < 60 := by
  unfold minuteOf
  omega

theorem strftimeHHMM_eq (now : Nat) :
    strftimeHHMM now = hourOf now * 100 + minuteOf now := rfl

theorem scheduleCheck_hhmm {w : Website} (hs : isHHMM w.startTime = true)
    (he : isHHMM w.endTime = true) (now : Nat) :
    scheduleCheck w ((strftimeHHMM now : Nat) : Int) =
      some (w.enabled &&
        (if timeMinutes w.startTime ≤ timeMinutes w.endTime then
          decide (timeMinutes w.startTime ≤ hourOf now * 60 + minuteOf now ∧
            hourOf now * 60 + minuteOf now ≤ timeMinutes w.endTime)
         else
          decide (timeMinutes w.startTime ≤ hourOf now * 60 + minuteOf now ∨
            hourOf now * 60 + minuteOf now ≤ timeMinutes w.endTime))) := by
  obtain ⟨H1, M1, hH1, hM1, hhs, hms⟩ := timeHHMM_decomp hs
  obtain ⟨H2, M2, hH2, hM2, hhe, hme⟩ := timeHHMM_decomp he
  have hmin := minuteOf_lt now
  unfold scheduleCheck
  cases hen : w.enabled
  · simp
  · rw [isHHMM_parse hs, isHHMM_parse he]
    simp only [Bool.true_and]
    rw [hhs, hms, hhe, hme, strftimeHHMM_eq]
    have iff1 : ((H1 * 100 + M1 : Nat) : Int) ≤ ((H2 * 100 + M2 : Nat) : Int) ↔
        H1 * 60 + M1 ≤ H2 * 60 + M2 := by
      rw [Nat.cast_le]
      omega
    have iff2 : (((H1 * 100 + M1 : Nat) : Int) ≤ ((hourOf now * 100 + minuteOf now : Nat) : Int) ∧
          ((hourOf now * 100 + minuteOf now : Nat) : Int) ≤ ((H2 * 100 + M2 : Nat) : Int)) ↔
        (H1 * 60 + M1 ≤ hourOf now * 60 + minuteOf now ∧
          hourOf now * 60 + minuteOf now ≤ H2 * 60 + M2) := by
      rw [Nat.cast_le, Nat.cast_le]
      omega
    have iff3 : (((hourOf now * 100 + minuteOf now : Nat) : Int) ≥ ((H1 * 100 + M1 : Nat) : Int) ∨
          ((hourOf now * 100 + minuteOf now : Nat) : Int) ≤ ((H2 * 100 + M2 : Nat) : Int)) ↔
        (H1 * 60 + M1 ≤ hourOf now * 60 + minuteOf now ∨
          hourOf now * 60 + minuteOf now ≤ H2 * 60 + M2) := by
      rw [ge_iff_le, Nat.cast_le, Nat.cast_le]
      omega
    by_cases hle : H1 * 60 + M1 ≤ H2 * 60 + M2
    · rw [if_pos (iff1.mpr hle), if_pos hle]
      exact congrArg some (decide_eq_decide.mpr iff2)
    · rw [if_neg (fun hc => hle (iff1.mp hc)), if_neg hle]
      exact congrArg some (decide_eq_decide.mpr iff3)

theorem check_block_no_pause {pauses : List (Str × PauseRecord)} {now : Nat} {w : Website}
    (hnp : noActivePause pauses now w) :
    check_block_needed pauses now w =
      (scheduleCheck w ((strftimeHHMM now : Nat) : Int)).getD false := by
  unfold check_block_needed check_block_needed_exc
  rcases hnp with h | ⟨wp, t, h1, h2, h3⟩
  · rw [h]
  · simp only [h1, h2]
    rw [if_neg (by omega)]

/-! ### Claims -/

/-- C1: the spec claims every reachable pause store satisfies
`dailyCount[date] ≤ 2` and `dailyMinutes[date] ≤ 15`.  The code violates the
minutes bound: a single 20-minute pause passes the quota guard (which only
inspects the state before granting) and the positive-duration check, yet
leaves `dailyMinutes[today] = 20 > 15`.  This contradicts the code's own
error message "Maximum 2 pauses or 15 minutes per day". -/
theorem pause_quota_minutes_exceeded :
    Reachable (pause_website { websites := [], pauses := [] } demoUrl 20 0).1 ∧
      dailyMinutesOn (pause_website { websites := [], pauses := [] } demoUrl 20 0).1.pauses
        demoUrl 0 = 20 ∧
      MAX_DAILY_PAUSE_MINUTES < 20 :=
  ⟨Reachable.step demoUrl 20 0 (Reachable.empty []) (by decide) (by decide),
    by decide, by decide⟩

/-- C2 counterexample: with one always-blocked site and no state change, the
second reconciliation writes different bytes than the first — the leading
newline of the written start delimiter (`'\n## ARCHBLOCKER START\n'`) becomes
a foreign blank line on the next read, so blank lines accumulate. -/
theorem reconcile_not_idempotent_cex :
    update_hosts_file [] 600 [demoSite]
        (update_hosts_file [] 600 [demoSite] "127.0.0.1 localhost\n".toList) ≠
      update_hosts_file [] 600 [demoSite] "127.0.0.1 localhost\n".toList := by
  decide

/-- C2 (amended): with unchanged registry and time, reconciliation is
byte-idempotent exactly when the block set is empty; when it is nonempty the
second run's output equals the first with one extra newline inserted
immediately before the managed section, hence differs from it. -/
theorem reconcile_second_run_adds_blank_line
    (pauses : List (Str × PauseRecord)) (now : Nat) (websites : List Website) (c : Str)
    (hw : ∀ w ∈ websites, '\n' ∉ w.url ∧ '#' ∉ w.url) :
    (blocksFor pauses now websites = [] →
      update_hosts_file pauses now websites (update_hosts_file pauses now websites c) =
        update_hosts_file pauses now websites c) ∧
    (blocksFor pauses now websites ≠ [] →
      update_hosts_file pauses now websites c =
          foreignOf c ++ managedSection (blocksFor pauses now websites) ∧
        update_hosts_file pauses now websites (update_hosts_file pauses now websites c) =
          foreignOf c ++ ['\n'] ++ managedSection (blocksFor pauses now websites) ∧
        update_hosts_file pauses now websites (update_hosts_file pauses now websites c) ≠
          update_hosts_file pauses now websites c) := by
  constructor
  · intro h
    rw [update_hosts_file_empty_blocks h, update_hosts_file_empty_blocks h, foreignOf_idem]
  · intro h
    have h1 : update_hosts_file pauses now websites c =
        foreignOf c ++ managedSection (blocksFor pauses now websites) :=
      update_hosts_file_blocks h
    have h2 : update_hosts_file pauses now websites (update_hosts_file pauses now websites c) =
        foreignOf c ++ ['\n'] ++ managedSection (blocksFor pauses now websites) := by
      rw [update_hosts_file_blocks h, foreignOf_update c hw h]
    refine ⟨h1, h2, ?_⟩
    intro heq
    rw [h2] at heq
    rw [h1] at heq
    have hlen := congrArg List.length heq
    simp [List.length_append] at hlen

/-- Witness for C2's amended theorem at a concrete store, site and content. -/
theorem reconcile_second_run_adds_blank_line_witness :
    update_hosts_file [] 600 [demoSite] (update_hosts_file [] 600 [demoSite] "x\n".toList) ≠
      update_hosts_file [] 600 [demoSite] "x\n".toList :=
  ((reconcile_second_run_adds_blank_line [] 600 [demoSite] "x\n".toList
    (by decide)).2 (by decide)).2.2

/-- C5 counterexample: the sequence of file operations the reconciler performs
on the artifact is not an atomic replace — interrupting right after the
truncating `open(HOSTS_FILE, 'w')` observes an empty file, with the foreign
content deleted. -/
theorem hosts_write_not_atomic_cex :
    atomicTraceB "127.0.0.1 localhost\n".toList
        (update_hosts_trace "0.0.0.0 x\n".toList) = false ∧
      runTrace "127.0.0.1 localhost\n".toList
        ((update_hosts_trace "0.0.0.0 x\n".toList).take 3) = [] :=
  ⟨by decide, by decide⟩

/-- C5 (amended): the reconciler rewrites the artifact in place: `open(.., 'w')`
truncates and `writelines` then writes, so the intermediate state after the
truncation is the empty file and the trace is not an atomic replace; only the
final state holds the new bytes. -/
theorem hosts_write_truncates_in_place (init newBytes : Str)
    (h1 : init ≠ []) (h2 : newBytes ≠ []) :
    runTrace init ((update_hosts_trace newBytes).take 3) = [] ∧
      runTrace init (update_hosts_trace newBytes) = newBytes ∧
      atomicTraceB init (update_hosts_trace newBytes) = false := by
  refine ⟨rfl, rfl, ?_⟩
  have h3 : ((runTrace init ((update_hosts_trace newBytes).take 3) == init) ||
      (runTrace init ((update_hosts_trace newBytes).take 3) ==
        runTrace init (update_hosts_trace newBytes))) = false := by
    show (([] : Str) == init || (([] : Str) == newBytes)) = false
    simp only [Bool.or_eq_false_iff, beq_eq_false_iff_ne]
    exact ⟨fun hx => h1 hx.symm, fun hx => h2 hx.symm⟩
  rw [Bool.eq_false_iff]
  intro hall
  have hmem : 3 ∈ List.range ((update_hosts_trace newBytes).length + 1) := by
    show 3 ∈ List.range 7
    decide
  have hinst := List.all_eq_true.mp hall 3 hmem
  rw [h3] at hinst
  exact Bool.false_ne_true hinst

/-- Witness for C5's amended theorem at concrete contents. -/
theorem hosts_write_truncates_in_place_witness :
    ("a\n".toList : Str) ≠ [] ∧ ("b\n".toList : Str) ≠ [] ∧
      (runTrace "a\n".toList ((update_hosts_trace "b\n".toList).take 3) = [] ∧
        runTrace "a\n".toList (update_hosts_trace "b\n".toList) = "b\n".toList ∧
        atomicTraceB "a\n".toList (update_hosts_trace "b\n".toList) = false) :=
  ⟨by decide, by decide,
    hosts_write_truncates_in_place "a\n".toList "b\n".toList (by decide) (by decide)⟩

/-- C8: the managed section is entirely absent (no delimiter occurs anywhere
in the output) when no target is blocked; otherwise the output is the
delimiter-free foreign bytes followed by exactly one managed section holding
two `0.0.0.0` lines (bare and `www.`-prefixed) per blocked target. -/
theorem managed_section_shape
    (pauses : List (Str × PauseRecord)) (now : Nat) (websites : List Website) (c : Str)
    (hw : ∀ w ∈ websites, '\n' ∉ w.url ∧ '#' ∉ w.url) :
    (blocksFor pauses now websites = [] →
      update_hosts_file pauses now websites c = foreignOf c ∧
        containsSub startMarker (update_hosts_file pauses now websites c) = false ∧
        containsSub endMarker (update_hosts_file pauses now websites c) = false) ∧
    (blocksFor pauses now websites ≠ [] →
      update_hosts_file pauses now websites c =
          foreignOf c ++ managedSection
            (List.flatten (List.map (fun w => blockPair w.url)
              (websites.filter (fun w => check_block_needed pauses now w)))) ∧
        containsSub startMarker (foreignOf c) = false ∧
        containsSub endMarker (foreignOf c) = false) := by
  constructor
  · intro h
    refine ⟨update_hosts_file_empty_blocks h, ?_, ?_⟩
    · rw [update_hosts_file_empty_blocks h]
      exact (foreignOf_marker_free c).1
    · rw [update_hosts_file_empty_blocks h]
      exact (foreignOf_marker_free c).2
  · intro h
    refine ⟨?_, (foreignOf_marker_free c).1, (foreignOf_marker_free c).2⟩
    rw [← blocksFor_filter]
    exact update_hosts_file_blocks h

/-- Witness for C8 at a concrete store, site and content. -/
theorem managed_section_shape_witness :
    update_hosts_file [] 600 [demoSite] "x\n".toList =
      foreignOf "x\n".toList ++ managedSection
        (List.flatten (List.map (fun w => blockPair w.url)
          (List.filter (fun w => check_block_needed [] 600 w) [demoSite]))) :=
  ((managed_section_shape [] 600 [demoSite] "x\n".toList (by decide)).2 (by decide)).1

/-- C9 counterexample: with a nonempty block set one reconciliation already
mutates the unterminated final foreign line (`"a"` becomes `"a\n"`), so the
lines outside the delimiters are not carried bit-identically. -/
theorem foreign_lines_not_bit_identical_cex :
    stripManaged false (readlines (update_hosts_file [] 600 [demoSite] "a".toList)) ≠
      stripManaged false (readlines "a".toList) := by
  decide

/-- C9 (amended): the original foreign bytes are preserved in order as a
prefix: `n` reconciliations with a nonempty block set leave the foreign region
equal to the original foreign bytes followed by exactly `n` newline characters
(no original line is reordered, deduplicated or otherwise changed), and with
an empty block set the artifact is byte-stable from the first run on. -/
theorem foreign_content_prefix_preserved
    (pauses : List (Str × PauseRecord)) (now : Nat) (websites : List Website)
    (hw : ∀ w ∈ websites, '\n' ∉ w.url ∧ '#' ∉ w.url) :
    (blocksFor pauses now websites ≠ [] → ∀ (n : Nat) (c : Str),
      foreignOf (iterUpdate pauses now websites n c) =
        foreignOf c ++ List.replicate n '\n') ∧
    (blocksFor pauses now websites = [] → ∀ (n : Nat) (c : Str), 1 ≤ n →
      iterUpdate pauses now websites n c = foreignOf c) :=
  ⟨fun h n c => iterUpdate_foreign hw h n c,
    fun h n c h1 => iterUpdate_stable h n c h1⟩

/-- Witness for C9's amended theorem: two reconciliations on `"a\n"`. -/
theorem foreign_content_prefix_preserved_witness :
    foreignOf (iterUpdate [] 600 [demoSite] 2 "a\n".toList) =
      foreignOf "a\n".toList ++ List.replicate 2 '\n' :=
  (foreign_content_prefix_preserved [] 600 [demoSite] (by decide)).1 (by decide) 2 "a\n".toList

/-- C3: for a target with well-formed `HH:MM` times and no active pause, the
decision is false when disabled; when enabled it blocks exactly inside the
inclusive window, with the crossing-midnight disjunction when the window
wraps.  (`hourOf now * 60 + minuteOf now` is the current minute of day; the
code's `HHMM` integer encoding is order-isomorphic to minutes-of-day for
well-formed times.) -/
theorem schedule_window_decision (pauses : List (Str × PauseRecord)) (now : Nat)
    (w : Website) (hnp : noActivePause pauses now w)
    (hs : isHHMM w.startTime = true) (he : isHHMM w.endTime = true) :
    check_block_needed pauses now w =
      (w.enabled &&
        (if timeMinutes w.startTime ≤ timeMinutes w.endTime then
          decide (timeMinutes w.startTime ≤ hourOf now * 60 + minuteOf now ∧
            hourOf now * 60 + minuteOf now ≤ timeMinutes w.endTime)
         else
          decide (timeMinutes w.startTime ≤ hourOf now * 60 + minuteOf now ∨
            hourOf now * 60 + minuteOf now ≤ timeMinutes w.endTime))) := by
  rw [check_block_no_pause hnp, scheduleCheck_hhmm hs he]
  rfl

/-- Witness for C3 at a concrete site and time. -/
theorem schedule_window_decision_witness :
    check_block_needed [] 600 demoSite =
      (demoSite.enabled &&
        (if timeMinutes demoSite.startTime ≤ timeMinutes demoSite.endTime then
          decide (timeMinutes demoSite.startTime ≤ hourOf 600 * 60 + minuteOf 600 ∧
            hourOf 600 * 60 + minuteOf 600 ≤ timeMinutes demoSite.endTime)
         else
          decide (timeMinutes demoSite.startTime ≤ hourOf 600 * 60 + minuteOf 600 ∨
            hourOf 600 * 60 + minuteOf 600 ≤ timeMinutes demoSite.endTime))) :=
  schedule_window_decision [] 600 demoSite (Or.inl rfl) (by decide) (by decide)

/-- C4 counterexample: `add_website` performs no validation — adding a target
whose url already exists appends it anyway, changing the registry and
duplicating the url. -/
theorem duplicate_url_accepted_cex :
    add_website { websites := [demoSite], pauses := [] } demoSite ≠
        { websites := [demoSite], pauses := [] } ∧
      (add_website { websites := [demoSite], pauses := [] } demoSite).websites.map
        Website.url = [demoUrl, demoUrl] :=
  ⟨by decide, by decide⟩

/-- C4 (amended): only the pause endpoint validates before mutating — a
non-positive duration or an exhausted quota leaves the persisted registry
unchanged; `add_website` rejects nothing, appending the posted target
unconditionally, so duplicate urls are accepted and url uniqueness is not
enforced. -/
theorem pause_validation_preserves_registry
    (config : Config) (url : Str) (d : Int) (now : Nat) :
    ((d ≤ 0 ∨ can_pause_website config.pauses url now = false) →
      (pause_website config url d now).1 = config) ∧
    (∀ w, add_website config w =
      { websites := config.websites ++ [w], pauses := config.pauses }) :=
  ⟨fun h => pause_website_rejected h, fun _ => rfl⟩

/-- Witness for C4's amended theorem: a negative duration leaves the registry
untouched. -/
theorem pause_validation_preserves_registry_witness :
    ((-3 : Int) ≤ 0 ∨ can_pause_website [] demoUrl 0 = false) ∧
      (pause_website { websites := [], pauses := [] } demoUrl (-3) 0).1 =
        { websites := [], pauses := [] } :=
  ⟨Or.inl (by decide),
    (pause_validation_preserves_registry { websites := [], pauses := [] } demoUrl (-3) 0).1
      (Or.inl (by decide))⟩

/-- C6: `can_pause_website` is true iff both of today's counters are strictly
below their caps, absent date keys reading zero; consequently two granted
pauses totalling 15 minutes on one day make a third check that day false,
while a check on the next calendar date is true again. -/
theorem can_pause_quota_spec :
    (∀ (pauses : List (Str × PauseRecord)) (url : Str) (now : Nat),
      can_pause_website pauses url now = true ↔
        dailyCountOn pauses url (dateOf now) < MAX_DAILY_PAUSES ∧
          dailyMinutesOn pauses url (dateOf now) < MAX_DAILY_PAUSE_MINUTES) ∧
    (∀ (config : Config) (url : Str) (d1 d2 : Int) (t1 t2 t3 : Nat),
      alookup config.pauses url = none → dateOf t1 = dateOf t2 →
      0 < d1 → 0 < d2 → d1 + d2 = 15 → dateOf t3 = dateOf t2 + 1 →
      can_pause_website
          (pause_website (pause_website config url d1 t1).1 url d2 t2).1.pauses url t2 =
        false ∧
      can_pause_website
          (pause_website (pause_website config url d1 t1).1 url d2 t2).1.pauses url t3 =
        true) := by
  constructor
  · exact can_pause_website_iff
  · intro config url d1 d2 t1 t2 t3 h0 hday h1 h2 hsum hd3
    have hc1 := @pause_website_fresh config url d1 t1 h0 h1
    have hl1 : alookup (pause_website config url d1 t1).1.pauses url =
        some { pause_until := some (IsoTime.valid (t1 + d1.toNat)),
               daily_count := [(dateOf t1, 1)],
               daily_minutes := [(dateOf t1, d1.toNat)] } := by
      rw [hc1]
      exact alookup_ainsert_self _ _ _
    have hcan2 : can_pause_website (pause_website config url d1 t1).1.pauses url t2 = true := by
      rw [can_pause_website_iff]
      unfold dailyCountOn dailyMinutesOn
      rw [hl1]
      simp only [dlookup, hday, if_pos rfl, Option.getD_some]
      refine ⟨by decide, ?_⟩
      show d1.toNat < MAX_DAILY_PAUSE_MINUTES
      unfold MAX_DAILY_PAUSE_MINUTES
      omega
    have hc2 := pause_website_existing hl1 h2 hcan2
    have hl2 : alookup
        (pause_website (pause_website config url d1 t1).1 url d2 t2).1.pauses url =
        some { pause_until := some (IsoTime.valid (t2 + d2.toNat)),
               daily_count := dinsert [(dateOf t1, 1)] (dateOf t2)
                 ((dlookup [(dateOf t1, 1)] (dateOf t2)).getD 0 + 1),
               daily_minutes := dinsert [(dateOf t1, d1.toNat)] (dateOf t2)
                 ((dlookup [(dateOf t1, d1.toNat)] (dateOf t2)).getD 0 + d2.toNat) } := by
      rw [hc2]
      exact alookup_ainsert_self _ _ _
    constructor
    · rw [Bool.eq_false_iff]
      intro hcp
      rw [can_pause_website_iff] at hcp
      have hcnt := hcp.1
      unfold dailyCountOn at hcnt
      rw [hl2] at hcnt
      simp only [dlookup, hday, if_pos rfl, Option.getD_some, dlookup_dinsert_self] at hcnt
      exact absurd hcnt (by decide)
    · rw [can_pause_website_iff]
      unfold dailyCountOn dailyMinutesOn
      simp only [hl2]
      have hne : dateOf t2 ≠ dateOf t3 := by omega
      rw [dlookup_dinsert_ne _ _ hne, dlookup_dinsert_ne _ _ hne]
      have hne1 : dateOf t1 ≠ dateOf t3 := by omega
      simp only [dlookup, if_neg hne1, Option.getD_none]
      exact ⟨by decide, by decide⟩

/-- Witness for C6's quota scenario: pauses of 7 and 8 minutes on day zero,
then checks the same day and the next day. -/
theorem can_pause_quota_spec_witness :
    can_pause_website
        (pause_website (pause_website { websites := [], pauses := [] } demoUrl 7 0).1
          demoUrl 8 10).1.pauses demoUrl 10 = false ∧
      can_pause_website
        (pause_website (pause_website { websites := [], pauses := [] } demoUrl 7 0).1
          demoUrl 8 10).1.pauses demoUrl 1440 = true :=
  can_pause_quota_spec.2 { websites := [], pauses := [] } demoUrl 7 8 0 10 1440
    rfl rfl (by decide) (by decide) (by decide) rfl

/-- C7: a stored pause whose timestamp parses to `t` force-allows the target
strictly before `t` regardless of the schedule, and from `t` on the decision
is exactly the Schedule Evaluator's result. -/
theorem active_pause_overrides_schedule (pauses : List (Str × PauseRecord)) (now : Nat)
    (w : Website) (wp : PauseRecord) (t : Nat)
    (hwp : alookup pauses w.url = some wp) (ht : fromisoformat wp.pause_until = some t) :
    (now < t → check_block_needed pauses now w = false) ∧
    (t ≤ now → check_block_needed pauses now w = shouldBlockSchedule w now) := by
  unfold check_block_needed check_block_needed_exc shouldBlockSchedule
  simp only [hwp, ht]
  constructor
  · intro h
    rw [if_pos h]
    rfl
  · intro h
    rw [if_neg (by omega)]

/-- Witness for C7: paused until minute 700, checked at minute 600 (inside the
site's all-day window). -/
theorem active_pause_overrides_schedule_witness :
    (600 < 700 → check_block_needed pausedFixture 600 demoSite = false) ∧
      (700 ≤ 600 → check_block_needed pausedFixture 600 demoSite =
        shouldBlockSchedule demoSite 600) :=
  active_pause_overrides_schedule pausedFixture 600 demoSite
    { pause_until := some (IsoTime.valid 700), daily_count := [], daily_minutes := [] }
    700 (by decide) rfl

/-- C10: the block decision fails open — any raised error yields `False`
(allow): in general an exceptional evaluation gives `False`, and in particular
an unparseable stored `pause_until` or an unparseable `startTime` of an
enabled target each yield `False`. -/
theorem block_decision_fails_open :
    (∀ (pauses : List (Str × PauseRecord)) (now : Nat) (w : Website),
      check_block_needed_exc pauses now w = none → check_block_needed pauses now w = false) ∧
    (∀ (pauses : List (Str × PauseRecord)) (now : Nat) (w : Website) (wp : PauseRecord),
      alookup pauses w.url = some wp → fromisoformat wp.pause_until = none →
        check_block_needed pauses now w = false) ∧
    (∀ (pauses : List (Str × PauseRecord)) (now : Nat) (w : Website),
      alookup pauses w.url = none → w.enabled = true →
        pyInt (removeColons w.startTime) = none →
        check_block_needed pauses now w = false) := by
  refine ⟨?_, ?_, ?_⟩
  · intro pauses now w h
    unfold check_block_needed
    rw [h]
    rfl
  · intro pauses now w wp h1 h2
    unfold check_block_needed check_block_needed_exc
    simp only [h1, h2]
    rfl
  · intro pauses now w h1 h2 h3
    unfold check_block_needed check_block_needed_exc scheduleCheck
    simp only [h1, h2, h3, if_true]
    rfl

/-- Witness for C10: a site whose `startTime` string `"9am"` cannot be parsed
is never blocked. -/
theorem block_decision_fails_open_witness :
    check_block_needed [] 0 badSite = false :=
  block_decision_fails_open.2.2 [] 0 badSite rfl rfl (by decide)
